import Mathlib

/-!
Shallow embedding of `horovod/common/elastic.py`: the `State` base class
(reset callbacks, pending host-update timestamp queue, commit protocol),
the concrete `ObjectState` (named tracked attributes with save / restore /
sync over a broadcast primitive), and the resilient `run_fn` retry loop.

Modelling conventions:
* the Python FIFO `queue.Queue` of host-message timestamps is a `List Nat`
  (append at the tail = `put`, drained left-to-right = repeated `get`);
* timestamps are `Nat` (the notifier delivers non-negative, increasing
  timestamps; the field starts at `0` as in `State.__init__`);
* reset callbacks are opaque values of a type `α`; their execution
  semantics (succeed, or fail with an error of type `ε`) is a function
  passed to `on_reset`;
* Python object attributes (`setattr` / `getattr`) become an association
  list from keys to values, updated in place by `setattr`;
* the broadcast primitive and the `_sync_host_updates` collective are
  function parameters, since they are external collaborators;
* exceptions become explicit `Option` / flag results: a function that can
  raise returns its would-raise decision as data.
-/

namespace Elastic

/-- The fields set up by `State.__init__`: the pending host-message queue,
the last accepted update timestamp, and the registered reset callbacks. -/
structure StateCore (α : Type) where
  host_messages : List Nat
  last_updated_timestamp : Nat
  reset_callbacks : List α
deriving Repr, DecidableEq

/-- `State.__init__`: empty queue, timestamp 0, no callbacks. -/
def StateCore.init {α : Type} : StateCore α :=
  { host_messages := [], last_updated_timestamp := 0, reset_callbacks := [] }

/-- `State.register_reset_callbacks`: extends the callback list. -/
def register_reset_callbacks {α : Type} (s : StateCore α) (callbacks : List α) :
    StateCore α :=
  { s with reset_callbacks := s.reset_callbacks ++ callbacks }

/-- `State.on_hosts_updated`: puts the timestamp on the FIFO queue. -/
def on_hosts_updated {α : Type} (s : StateCore α) (timestamp : Nat) : StateCore α :=
  { s with host_messages := s.host_messages ++ [timestamp] }

/-- Executing the callback list in order, as `State.on_reset` does: each
callback either succeeds (`run c = none`) or fails (`run c = some e`); a
failure stops the iteration. Returns the callbacks actually invoked, in
order, and the propagated error if any. -/
def runCallbacks {α ε : Type} (run : α → Option ε) : List α → List α × Option ε
  | [] => ([], none)
  | c :: rest =>
    match run c with
    | some e => ([c], some e)
    | none =>
      let r := runCallbacks run rest
      (c :: r.1, r.2)

/-- `State.on_reset`: runs every registered callback in registration order. -/
def on_reset {α ε : Type} (run : α → Option ε) (s : StateCore α) :
    List α × Option ε :=
  runCallbacks run s.reset_callbacks

/-- One iteration of the drain loop in `State._update_known_hosts`:
if the drained timestamp exceeds the current `last_updated_timestamp`,
accept it and mark `updated`. -/
def drainStep (acc : Nat × Bool) (timestamp : Nat) : Nat × Bool :=
  if acc.1 < timestamp then (timestamp, true) else acc

/-- The full drain loop of `State._update_known_hosts`: consume the queued
timestamps in FIFO order, returning the new `last_updated_timestamp` and
the locally computed `updated` flag. -/
def drain (last : Nat) (msgs : List Nat) : Nat × Bool :=
  msgs.foldl drainStep (last, false)

/-- `State._update_known_hosts`: drain the queue, then pass the local
`updated` flag to the collective `_sync_host_updates` (the function
parameter `syncFn`); the returned Bool is whether `HostsUpdatedException`
is raised (true iff the synced flag is true). The mutated state is
returned in either case, since in the source the queue is emptied and the
timestamp updated before the exception is raised. -/
def updateKnownHosts {α : Type} (syncFn : Bool → Bool) (s : StateCore α) :
    StateCore α × Bool :=
  let d := drain s.last_updated_timestamp s.host_messages
  ({ s with host_messages := [], last_updated_timestamp := d.1 }, syncFn d.2)

/-- The locally computed `updated` flag a participant would derive from its
own queue in `_update_known_hosts`. -/
def localFlag {α : Type} (s : StateCore α) : Bool :=
  (drain s.last_updated_timestamp s.host_messages).2

/-- The logical OR across all participants of their local flags: the model
of the collective agreement reached by `_sync_host_updates`. -/
def globalOr {α : Type} (ss : List (StateCore α)) : Bool :=
  (ss.map localFlag).any id

/-- `_sync_host_updates` modelled as logical OR across participants: the
caller's own flag `b` is OR-ed with every participant's local flag. -/
def orSync {α : Type} (ss : List (StateCore α)) : Bool → Bool :=
  fun b => b || globalOr ss

/-- A run of the timestamp protocol: each batch is the list of timestamps
delivered by `on_hosts_updated` between two commits, and each commit
drains the queue via `updateKnownHosts`. Returns the state after the last
commit. -/
def runBatches {α : Type} (syncFn : Bool → Bool) (batches : List (List Nat)) :
    StateCore α :=
  batches.foldl
    (fun s batch => (updateKnownHosts syncFn (batch.foldl on_hosts_updated s)).1)
    StateCore.init

/-! ## ObjectState

Python object attributes are modelled as an association list from keys `K`
to values `V`; `setattr` overwrites the first binding of the key or
appends a new one, `getattr` looks a key up. The `**kwargs` dict of
`ObjectState.__init__` is an association list with pairwise distinct keys
(a Python dict cannot repeat a key). -/

/-- `setattr obj k v`: overwrite the first binding of `k`, or append. -/
def setattr {K V : Type} [DecidableEq K] :
    List (K × V) → K → V → List (K × V)
  | [], k, v => [(k, v)]
  | (k', v') :: rest, k, v =>
    if k' = k then (k, v) :: rest else (k', v') :: setattr rest k v

/-- `getattr obj k`: the value of the first binding of `k`, if any. -/
def getattr {K V : Type} [DecidableEq K] : List (K × V) → K → Option V
  | [], _ => none
  | (k', v) :: rest, k => if k' = k then some v else getattr rest k

/-- `ObjectState._set_attrs`: assign each saved item as a live attribute,
in mapping order. -/
def setAttrs {K V : Type} [DecidableEq K]
    (attrs : List (K × V)) (items : List (K × V)) : List (K × V) :=
  items.foldl (fun a kv => setattr a kv.1 kv.2) attrs

/-- The keys of an association list, in order. -/
def keysOf {K V : Type} (l : List (K × V)) : List K :=
  l.map Prod.fst

/-- The `ObjectState` fields: the internal saved mapping `_saved_state`,
the live attributes of the object, and the inherited `State` fields.
The broadcast primitive `_bcast_object` is an external collaborator and is
passed as a function parameter to the operations that use it. -/
structure ObjectState (K V α : Type) where
  saved_state : List (K × V)
  attrs : List (K × V)
  core : StateCore α
deriving Repr, DecidableEq

namespace ObjectState

/-- `ObjectState.__init__`: record the kwargs as `_saved_state`, apply them
as live attributes via `_set_attrs`, then run `State.__init__`. -/
def init {K V α : Type} [DecidableEq K] (kwargs : List (K × V)) :
    ObjectState K V α :=
  { saved_state := kwargs, attrs := setAttrs [] kwargs, core := StateCore.init }

/-- The loop body of `ObjectState.save`: for each tracked key (a key of
`_saved_state`), read the current live attribute; `getattr` on a missing
attribute raises in Python, so the snapshot is `none` in that case. -/
def snapshot {K V : Type} [DecidableEq K] (attrs : List (K × V)) :
    List (K × V) → Option (List (K × V))
  | [] => some []
  | (k, _) :: rest =>
    match getattr attrs k, snapshot attrs rest with
    | some v, some ns => some ((k, v) :: ns)
    | _, _ => none

/-- `ObjectState.save`: replace `_saved_state` with a snapshot of the
current live values of the tracked keys. -/
def save {K V α : Type} [DecidableEq K] (s : ObjectState K V α) :
    Option (ObjectState K V α) :=
  (snapshot s.attrs s.saved_state).map (fun ns => { s with saved_state := ns })

/-- `ObjectState.restore`: re-apply `_saved_state` onto the live
attributes via `_set_attrs`. -/
def restore {K V α : Type} [DecidableEq K] (s : ObjectState K V α) :
    ObjectState K V α :=
  { s with attrs := setAttrs s.attrs s.saved_state }

/-- A user mutation of a live attribute between state operations
(`state.attr = v` in Python). -/
def setLive {K V α : Type} [DecidableEq K] (s : ObjectState K V α)
    (k : K) (v : V) : ObjectState K V α :=
  { s with attrs := setattr s.attrs k v }

/-- `ObjectState.sync`: if `_saved_state` is non-empty, replace it by the
result of broadcasting it (`bcast` is the external `_bcast_object`) and
re-apply it as live attributes; otherwise do nothing. The returned Bool
records whether the broadcast primitive was called. -/
def sync {K V α : Type} [DecidableEq K]
    (bcast : List (K × V) → List (K × V)) (s : ObjectState K V α) :
    ObjectState K V α × Bool :=
  if s.saved_state.isEmpty then (s, false)
  else
    let ns := bcast s.saved_state
    ({ s with saved_state := ns, attrs := setAttrs s.attrs ns }, true)

/-- `State.commit` as inherited by `ObjectState`: `save()` then
`_update_known_hosts()`. Returns `none` if `save` fails; otherwise the
state after both steps and whether `HostsUpdatedException` is raised. -/
def commit {K V α : Type} [DecidableEq K] (syncFn : Bool → Bool)
    (s : ObjectState K V α) : Option (ObjectState K V α × Bool) :=
  (save s).map (fun s' =>
    let r := updateKnownHosts syncFn s'.core
    ({ s' with core := r.1 }, r.2))

end ObjectState

/-! ## The resilient runner `run_fn`

The wrapped user computation `func` is external: one invocation of the
loop body is summarised by its outcome. The loop's observable behaviour is
the ordered trace of the calls it makes on its collaborators, plus how it
terminates. -/

/-- The outcome of one invocation of the wrapped user computation. -/
inductive FuncOutcome (V E : Type) where
  | ok (v : V)        -- normal return
  | internalErr       -- HorovodInternalError
  | hostsUpdated      -- HostsUpdatedException
  | other (e : E)     -- any other exception
deriving Repr, DecidableEq

/-- The calls `run_fn`'s wrapper makes on its collaborators, in order. -/
inductive Event where
  | registerListener   -- notification_manager.register_listener(state)
  | resetFn            -- reset()
  | onReset            -- state.on_reset()
  | syncState          -- state.sync()
  | callFunc           -- func(state, ...)
  | restoreState       -- state.restore()
  | removeListener     -- notification_manager.remove_listener(state)
deriving Repr, DecidableEq

/-- How the loop terminates. -/
inductive LoopResult (V E : Type) where
  | returned (v : V)       -- func returned normally; its value is returned
  | fatal (e : E)          -- an unclassified exception propagates
  | outOfOutcomes          -- the modelled outcome sequence was exhausted
deriving Repr, DecidableEq

/-- The events of one loop iteration before `func` is invoked: the reset
block (only when `reset_required`) followed by `state.sync()`. -/
def iterEvents (reset_required : Bool) : List Event :=
  (if reset_required then [Event.resetFn, Event.onReset] else [])
    ++ [Event.syncState]

/-- The `while True` loop of `run_fn`'s wrapper: each iteration consumes
the next outcome of `func`. -/
def runLoop {V E : Type} :
    Bool → List (FuncOutcome V E) → List Event × LoopResult V E
  | _, [] => ([], LoopResult.outOfOutcomes)
  | rq, o :: rest =>
    match o with
    | FuncOutcome.ok v =>
      (iterEvents rq ++ [Event.callFunc], LoopResult.returned v)
    | FuncOutcome.other e =>
      (iterEvents rq ++ [Event.callFunc], LoopResult.fatal e)
    | FuncOutcome.internalErr =>
      let r := runLoop true rest
      (iterEvents rq ++ [Event.callFunc, Event.restoreState] ++ r.1, r.2)
    | FuncOutcome.hostsUpdated =>
      let r := runLoop true rest
      (iterEvents rq ++ [Event.callFunc] ++ r.1, r.2)

/-- `run_fn`'s wrapper: register the state as a listener, run the loop
with `reset_required = False`, and in a `finally` block remove the
listener on every exit path. -/
def wrapper {V E : Type} (outcomes : List (FuncOutcome V E)) :
    List Event × LoopResult V E :=
  let r := runLoop false outcomes
  (Event.registerListener :: r.1 ++ [Event.removeListener], r.2)

/-! ## Concrete example states, used to exercise the theorems -/

/-- Two participants in mid-run: the first has a pending host update
newer than its last accepted timestamp, the second has an empty queue. -/
def demoParticipants : List (StateCore Unit) :=
  [{ host_messages := [100], last_updated_timestamp := 50, reset_callbacks := [] },
   { host_messages := [], last_updated_timestamp := 50, reset_callbacks := [] }]

/-- One tracked attribute, committed at 4, live value mutated to 9. -/
def demoSaved : ObjectState Nat Nat Unit :=
  { saved_state := [(0, 4)], attrs := [(0, 9)], core := StateCore.init }

/-- Like `demoSaved`, with a pending host update in the queue. -/
def demoCommitState : ObjectState Nat Nat Unit :=
  { saved_state := [(0, 4)], attrs := [(0, 9)],
    core := { host_messages := [100], last_updated_timestamp := 50,
              reset_callbacks := [] } }

/-- An object state tracking nothing. -/
def demoEmptyState : ObjectState Nat Nat Unit :=
  { saved_state := [], attrs := [], core := StateCore.init }

/-- A freshly constructed object state tracking one attribute. -/
def demoSyncState : ObjectState Nat Nat Unit :=
  { saved_state := [(0, 5)], attrs := [(0, 5)], core := StateCore.init }

/-! ## Helper lemmas: association lists -/

theorem getattr_setattr {K V : Type} [DecidableEq K]
    (attrs : List (K × V)) (k k' : K) (v : V) :
    getattr (setattr attrs k v) k' = if k = k' then some v else getattr attrs k' := by
  induction attrs with
  | nil => simp [setattr, getattr]
  | cons kv rest ih =>
    obtain ⟨k₀, v₀⟩ := kv
    simp only [setattr]
    by_cases h : k₀ = k
    · subst h
      simp only [if_pos rfl, getattr]
      by_cases h' : k₀ = k' <;> simp [h']
    · rw [if_neg h]
      simp only [getattr, ih]
      by_cases h' : k₀ = k'
      · have hk : ¬k = k' := fun hh => h (h'.trans hh.symm)
        simp [h', hk]
      · simp [h']

theorem getattr_eq_none_iff {K V : Type} [DecidableEq K]
    (l : List (K × V)) (k : K) : getattr l k = none ↔ k ∉ keysOf l := by
  induction l with
  | nil => simp [getattr, keysOf]
  | cons kv rest ih =>
    obtain ⟨k₀, v₀⟩ := kv
    by_cases h : k₀ = k
    · subst h; simp [getattr, keysOf]
    · simp only [getattr, if_neg h, ih, keysOf, List.map_cons, List.mem_cons]
      constructor
      · intro hn hmem
        rcases hmem with hmem | hmem
        · exact h hmem.symm
        · exact hn hmem
      · intro hn hmem
        exact hn (Or.inr hmem)

theorem getattr_setAttrs_not_mem {K V : Type} [DecidableEq K]
    (items : List (K × V)) (attrs : List (K × V)) (k : K)
    (h : k ∉ keysOf items) :
    getattr (setAttrs attrs items) k = getattr attrs k := by
  induction items generalizing attrs with
  | nil => rfl
  | cons kv rest ih =>
    obtain ⟨k₀, v₀⟩ := kv
    simp only [keysOf, List.map_cons, List.mem_cons, not_or] at h
    have : setAttrs attrs ((k₀, v₀) :: rest) = setAttrs (setattr attrs k₀ v₀) rest := rfl
    rw [this, ih _ (by simpa [keysOf] using h.2), getattr_setattr, if_neg (fun hh => h.1 hh.symm)]

theorem getattr_setAttrs_mem {K V : Type} [DecidableEq K]
    (items : List (K × V)) (attrs : List (K × V)) (k : K)
    (hnd : (keysOf items).Nodup) (h : k ∈ keysOf items) :
    getattr (setAttrs attrs items) k = getattr items k := by
  induction items generalizing attrs with
  | nil => simp [keysOf] at h
  | cons kv rest ih =>
    obtain ⟨k₀, v₀⟩ := kv
    simp only [keysOf, List.map_cons, List.nodup_cons] at hnd
    have hstep : setAttrs attrs ((k₀, v₀) :: rest) = setAttrs (setattr attrs k₀ v₀) rest := rfl
    by_cases hk : k₀ = k
    · subst hk
      rw [hstep, getattr_setAttrs_not_mem rest _ _ (by simpa [keysOf] using hnd.1),
        getattr_setattr, if_pos rfl]
      simp [getattr]
    · simp only [keysOf, List.map_cons, List.mem_cons] at h
      rcases h with h | h
      · exact absurd h.symm hk
      · rw [hstep, ih _ hnd.2 (by simpa [keysOf] using h)]
        simp [getattr, hk]

theorem ObjectState.snapshot_keys {K V : Type} [DecidableEq K]
    (attrs : List (K × V)) (items ns : List (K × V))
    (h : ObjectState.snapshot attrs items = some ns) :
    keysOf ns = keysOf items := by
  induction items generalizing ns with
  | nil =>
    simp only [ObjectState.snapshot, Option.some.injEq] at h
    subst h; rfl
  | cons kv rest ih =>
    obtain ⟨k₀, v₀⟩ := kv
    simp only [ObjectState.snapshot] at h
    cases hg : getattr attrs k₀ with
    | none => rw [hg] at h; simp at h
    | some v =>
      rw [hg] at h
      cases hs : ObjectState.snapshot attrs rest with
      | none => rw [hs] at h; simp at h
      | some ns' =>
        rw [hs] at h
        simp only [Option.some.injEq] at h
        subst h
        have hkeys := ih ns' hs
        simp only [keysOf, List.map_cons] at hkeys ⊢
        rw [hkeys]

theorem ObjectState.getattr_snapshot {K V : Type} [DecidableEq K]
    (attrs : List (K × V)) (items ns : List (K × V))
    (h : ObjectState.snapshot attrs items = some ns) (k : K)
    (hk : k ∈ keysOf items) :
    getattr ns k = getattr attrs k := by
  induction items generalizing ns with
  | nil => simp [keysOf] at hk
  | cons kv rest ih =>
    obtain ⟨k₀, v₀⟩ := kv
    simp only [ObjectState.snapshot] at h
    cases hg : getattr attrs k₀ with
    | none => rw [hg] at h; simp at h
    | some v =>
      rw [hg] at h
      cases hs : ObjectState.snapshot attrs rest with
      | none => rw [hs] at h; simp at h
      | some ns' =>
        rw [hs] at h
        simp only [Option.some.injEq] at h
        subst h
        by_cases hk0 : k₀ = k
        · subst hk0; simpa [getattr] using hg.symm
        · simp only [keysOf, List.map_cons, List.mem_cons] at hk
          rcases hk with hk | hk
          · exact absurd hk.symm hk0
          · simpa [getattr, hk0] using ih ns' hs (by simpa [keysOf] using hk)

/-! ## Helper lemmas: the drain loop and running maxima -/

theorem drainStep_eq (last : Nat) (b : Bool) (t : Nat) :
    drainStep (last, b) t = (max last t, b || decide (last < t)) := by
  by_cases h : last < t
  · simp [drainStep, h, max_eq_right (Nat.le_of_lt h)]
  · simp [drainStep, h, max_eq_left (Nat.le_of_not_lt h)]

theorem drain_fst (last : Nat) (msgs : List Nat) (b : Bool) :
    (msgs.foldl drainStep (last, b)).1 = msgs.foldl max last := by
  induction msgs generalizing last b with
  | nil => rfl
  | cons t rest ih =>
    simp only [List.foldl_cons, drainStep_eq]
    rw [ih]

theorem le_foldl_max (l : List Nat) (a : Nat) : a ≤ l.foldl max a := by
  induction l generalizing a with
  | nil => exact Nat.le_refl a
  | cons x rest ih => exact Nat.le_trans (Nat.le_max_left a x) (ih (max a x))

theorem mem_le_foldl_max (l : List Nat) (a x : Nat) (hx : x ∈ l) :
    x ≤ l.foldl max a := by
  induction l generalizing a with
  | nil => simp at hx
  | cons y rest ih =>
    rcases List.mem_cons.mp hx with h | h
    · subst h
      exact Nat.le_trans (Nat.le_max_right a x) (le_foldl_max rest (max a x))
    · exact ih (max a y) h

theorem foldl_max_mem (l : List Nat) (a : Nat) :
    l.foldl max a = a ∨ l.foldl max a ∈ l := by
  induction l generalizing a with
  | nil => exact Or.inl rfl
  | cons x rest ih =>
    rcases ih (max a x) with h | h
    · simp only [List.foldl_cons]
      rcases max_choice a x with hm | hm
      · rw [h, hm]; exact Or.inl rfl
      · rw [h, hm]; exact Or.inr (List.mem_cons_self x rest)
    · exact Or.inr (List.mem_cons_of_mem x h)

theorem foldl_max_perm {l₁ l₂ : List Nat} (p : l₁.Perm l₂) :
    ∀ a : Nat, l₁.foldl max a = l₂.foldl max a := by
  induction p with
  | nil => intro a; rfl
  | cons x _ ih => intro a; simp only [List.foldl_cons]; exact ih (max a x)
  | swap x y l =>
    intro a
    simp only [List.foldl_cons]
    rw [sup_right_comm a y x]
  | trans _ _ ih₁ ih₂ => intro a; rw [ih₁ a, ih₂ a]

/-! ## Helper lemmas: callbacks, commit rounds, and the runner loop -/

theorem runCallbacks_all_none {α ε : Type} (run : α → Option ε) (cbs : List α)
    (h : ∀ x ∈ cbs, run x = none) : runCallbacks run cbs = (cbs, none) := by
  induction cbs with
  | nil => rfl
  | cons c rest ih =>
    have hc : run c = none := h c (List.mem_cons_self c rest)
    simp only [runCallbacks, hc]
    rw [ih (fun x hx => h x (List.mem_cons_of_mem c hx))]

theorem runCallbacks_first_failure {α ε : Type} (run : α → Option ε)
    (cs1 : List α) (c : α) (cs2 : List α) (e : ε)
    (h1 : ∀ x ∈ cs1, run x = none) (hc : run c = some e) :
    runCallbacks run (cs1 ++ c :: cs2) = (cs1 ++ [c], some e) := by
  induction cs1 with
  | nil => simp [runCallbacks, hc]
  | cons x rest ih =>
    have hx : run x = none := h1 x (List.mem_cons_self x rest)
    simp only [List.cons_append, runCallbacks, hx, List.append_eq]
    rw [ih (fun y hy => h1 y (List.mem_cons_of_mem x hy))]

theorem foldl_on_hosts_updated {α : Type} (batch : List Nat) (s : StateCore α) :
    batch.foldl on_hosts_updated s =
      { s with host_messages := s.host_messages ++ batch } := by
  induction batch generalizing s with
  | nil => simp
  | cons t rest ih =>
    simp only [List.foldl_cons, ih, on_hosts_updated, List.append_assoc,
      List.singleton_append]

theorem updateKnownHosts_fst_timestamp {α : Type} (syncFn : Bool → Bool)
    (s : StateCore α) :
    ((updateKnownHosts syncFn s).1).last_updated_timestamp
      = s.host_messages.foldl max s.last_updated_timestamp := by
  simp only [updateKnownHosts]
  exact drain_fst s.last_updated_timestamp s.host_messages false

theorem runBatches_timestamp_aux {α : Type} (syncFn : Bool → Bool)
    (batches : List (List Nat)) (s : StateCore α) (hq : s.host_messages = []) :
    ((batches.foldl
        (fun s batch => (updateKnownHosts syncFn (batch.foldl on_hosts_updated s)).1)
        s)).last_updated_timestamp
      = batches.flatten.foldl max s.last_updated_timestamp := by
  induction batches generalizing s with
  | nil => simp
  | cons batch rest ih =>
    simp only [List.foldl_cons, List.flatten_cons]
    rw [ih _ rfl]
    rw [updateKnownHosts_fst_timestamp, foldl_on_hosts_updated, hq,
      List.nil_append, List.foldl_append]

theorem orSync_updateKnownHosts {α : Type} (ss : List (StateCore α))
    (s : StateCore α) (hs : s ∈ ss) :
    (updateKnownHosts (orSync ss) s).2 = globalOr ss := by
  have h1 : (updateKnownHosts (orSync ss) s).2 = (localFlag s || globalOr ss) := rfl
  rw [h1]
  cases hf : localFlag s with
  | false => simp
  | true =>
    have hg : globalOr ss = true := by
      unfold globalOr
      rw [List.any_eq_true]
      exact ⟨localFlag s, List.mem_map_of_mem localFlag hs, by rw [hf]; rfl⟩
    simp [hg]

theorem mem_iterEvents_ne {x : Event} {rq : Bool} (hx : x ∈ iterEvents rq) :
    x ≠ Event.registerListener ∧ x ≠ Event.removeListener := by
  cases rq with
  | false =>
    simp [iterEvents] at hx
    subst hx
    exact ⟨by decide, by decide⟩
  | true =>
    simp [iterEvents] at hx
    rcases hx with hx | hx | hx <;> subst hx <;> exact ⟨by decide, by decide⟩

theorem mem_runLoop_trace {V E : Type} (rq : Bool)
    (outcomes : List (FuncOutcome V E)) (e : Event)
    (he : e ∈ (runLoop rq outcomes).1) :
    e ≠ Event.registerListener ∧ e ≠ Event.removeListener := by
  induction outcomes generalizing rq with
  | nil => simp [runLoop] at he
  | cons o rest ih =>
    cases o with
    | ok v =>
      rw [show (runLoop rq (FuncOutcome.ok v :: rest)).1
          = iterEvents rq ++ [Event.callFunc] from rfl] at he
      rcases List.mem_append.mp he with h | h
      · exact mem_iterEvents_ne h
      · rw [List.mem_singleton] at h; subst h; exact ⟨by decide, by decide⟩
    | other e' =>
      rw [show (runLoop rq (FuncOutcome.other e' :: rest)).1
          = iterEvents rq ++ [Event.callFunc] from rfl] at he
      rcases List.mem_append.mp he with h | h
      · exact mem_iterEvents_ne h
      · rw [List.mem_singleton] at h; subst h; exact ⟨by decide, by decide⟩
    | internalErr =>
      rw [show (runLoop rq (FuncOutcome.internalErr :: rest)).1
          = iterEvents rq ++ [Event.callFunc, Event.restoreState]
              ++ (runLoop true rest).1 from rfl] at he
      rcases List.mem_append.mp he with h | h
      · rcases List.mem_append.mp h with h2 | h2
        · exact mem_iterEvents_ne h2
        · simp only [List.mem_cons, List.mem_singleton, List.not_mem_nil, or_false] at h2
          rcases h2 with h2 | h2 <;> subst h2 <;> exact ⟨by decide, by decide⟩
      · exact ih true h
    | hostsUpdated =>
      rw [show (runLoop rq (FuncOutcome.hostsUpdated :: rest)).1
          = iterEvents rq ++ [Event.callFunc] ++ (runLoop true rest).1 from rfl] at he
      rcases List.mem_append.mp he with h | h
      · rcases List.mem_append.mp h with h2 | h2
        · exact mem_iterEvents_ne h2
        · rw [List.mem_singleton] at h2; subst h2; exact ⟨by decide, by decide⟩
      · exact ih true h

theorem removeListener_not_mem_runLoop {V E : Type} (rq : Bool)
    (outcomes : List (FuncOutcome V E)) :
    Event.removeListener ∉ (runLoop rq outcomes).1 := by
  intro h
  exact (mem_runLoop_trace rq outcomes _ h).2 rfl

theorem registerListener_not_mem_runLoop {V E : Type} (rq : Bool)
    (outcomes : List (FuncOutcome V E)) :
    Event.registerListener ∉ (runLoop rq outcomes).1 := by
  intro h
  exact (mem_runLoop_trace rq outcomes _ h).1 rfl

/-! ## Claim theorems -/

/-- C1: inside the resilient runner loop, a `HorovodInternalError` from the
wrapped computation triggers `state.restore()` and a retry with
`reset_required` set; a `HostsUpdatedException` triggers a retry with
`reset_required` set but no restore; any other failure propagates out of
the loop with no restore and no retry. The last two conjuncts spell out
the events of a retried iteration: with `reset_required` set it begins
with `reset()` and `state.on_reset()` before `state.sync()`. -/
theorem runner_failure_classification {V E : Type} :
    (∀ (rq : Bool) (rest : List (FuncOutcome V E)),
        runLoop rq (FuncOutcome.internalErr :: rest)
          = (iterEvents rq ++ [Event.callFunc, Event.restoreState]
                ++ (runLoop true rest).1,
              (runLoop true rest).2))
    ∧ (∀ (rq : Bool) (rest : List (FuncOutcome V E)),
        runLoop rq (FuncOutcome.hostsUpdated :: rest)
          = (iterEvents rq ++ [Event.callFunc] ++ (runLoop true rest).1,
              (runLoop true rest).2))
    ∧ (∀ (rq : Bool) (rest : List (FuncOutcome V E)) (e : E),
        runLoop rq (FuncOutcome.other e :: rest)
          = (iterEvents rq ++ [Event.callFunc], LoopResult.fatal e))
    ∧ iterEvents true = [Event.resetFn, Event.onReset, Event.syncState]
    ∧ iterEvents false = [Event.syncState] :=
  ⟨fun _ _ => rfl, fun _ _ => rfl, fun _ _ _ => rfl, rfl, rfl⟩

/-- C5: whenever the wrapped runner terminates (by returning the user
computation's value or by propagating an uncaught failure), its event
trace starts with exactly one listener registration and ends with exactly
one listener removal: the registration never outlives the invocation. -/
theorem runner_always_removes_listener {V E : Type}
    (outcomes : List (FuncOutcome V E))
    (h : (wrapper outcomes).2 ≠ LoopResult.outOfOutcomes) :
    ((wrapper outcomes).1).head? = some Event.registerListener
    ∧ ((wrapper outcomes).1).getLast? = some Event.removeListener
    ∧ ((wrapper outcomes).1).count Event.registerListener = 1
    ∧ ((wrapper outcomes).1).count Event.removeListener = 1 := by
  have htr : (wrapper outcomes).1
      = Event.registerListener :: (runLoop false outcomes).1
          ++ [Event.removeListener] := rfl
  refine ⟨by rw [htr]; rfl, ?_, ?_, ?_⟩
  · rw [htr]
    show ((Event.registerListener :: (runLoop false outcomes).1)
        ++ [Event.removeListener]).getLast? = some Event.removeListener
    exact List.getLast?_concat _
  · rw [htr]
    simp [List.count_cons, List.count_append,
      List.count_eq_zero.mpr (registerListener_not_mem_runLoop false outcomes)]
  · rw [htr]
    simp [List.count_cons, List.count_append,
      List.count_eq_zero.mpr (removeListener_not_mem_runLoop false outcomes)]

theorem runner_always_removes_listener_witness :
    (wrapper (V := Nat) (E := Unit) [FuncOutcome.ok 0]).2 ≠ LoopResult.outOfOutcomes
    ∧ ((wrapper (V := Nat) (E := Unit) [FuncOutcome.ok 0]).1).getLast?
        = some Event.removeListener :=
  ⟨by decide, (runner_always_removes_listener [FuncOutcome.ok 0] (by decide)).2.1⟩

/-- C2: `_update_known_hosts` raises the membership-changed signal exactly
when `_sync_host_updates` returns true on the locally computed flag; and
when the collective is modelled as logical OR across all participants,
every participant's raise decision on a commit round equals the global OR,
so either all raise or none does. -/
theorem commit_raise_globally_consistent {α : Type} :
    (∀ (syncFn : Bool → Bool) (s : StateCore α),
        (updateKnownHosts syncFn s).2 = syncFn (localFlag s))
    ∧ (∀ (ss : List (StateCore α)) (i : Nat) (hi : i < ss.length),
        (updateKnownHosts (orSync ss) (ss.get ⟨i, hi⟩)).2 = globalOr ss)
    ∧ (∀ (ss : List (StateCore α)) (i j : Nat)
        (hi : i < ss.length) (hj : j < ss.length),
        (updateKnownHosts (orSync ss) (ss.get ⟨i, hi⟩)).2
          = (updateKnownHosts (orSync ss) (ss.get ⟨j, hj⟩)).2) := by
  refine ⟨fun _ _ => rfl, ?_, ?_⟩
  · intro ss i hi
    exact orSync_updateKnownHosts ss _ (ss.get_mem i hi)
  · intro ss i j hi hj
    rw [orSync_updateKnownHosts ss _ (ss.get_mem i hi),
      orSync_updateKnownHosts ss _ (ss.get_mem j hj)]

theorem commit_raise_globally_consistent_witness :
    (0 : Nat) < demoParticipants.length
    ∧ (updateKnownHosts (orSync demoParticipants)
          (demoParticipants.get ⟨0, by decide⟩)).2 = true := by
  refine ⟨by decide, ?_⟩
  rw [commit_raise_globally_consistent.2.1 demoParticipants 0 (by decide)]
  decide

/-- C3: across any run made of `on_hosts_updated` deliveries grouped into
commit rounds, after every commit `last_updated_timestamp` equals the
running maximum of all delivered timestamps (starting from the initial 0);
it is invariant under reordering within each drain, it is attained by a
delivered timestamp when any exists, it never decreases across a commit,
and the post-commit state does not depend on the collective's answer
(so it is the same whether or not the commit raises). -/
theorem commit_timestamp_running_max {α : Type} :
    (∀ (syncFn : Bool → Bool) (batches : List (List Nat)),
        (runBatches (α := α) syncFn batches).last_updated_timestamp
          = batches.flatten.foldl max 0)
    ∧ (∀ (syncFn syncFn' : Bool → Bool) (batches batches' : List (List Nat)),
        List.Forall₂ List.Perm batches batches' →
        (runBatches (α := α) syncFn batches).last_updated_timestamp
          = (runBatches (α := α) syncFn' batches').last_updated_timestamp)
    ∧ (∀ (syncFn : Bool → Bool) (batches : List (List Nat)) (t : Nat),
        t ∈ batches.flatten →
        t ≤ (runBatches (α := α) syncFn batches).last_updated_timestamp)
    ∧ (∀ (syncFn : Bool → Bool) (batches : List (List Nat)),
        batches.flatten ≠ [] →
        (runBatches (α := α) syncFn batches).last_updated_timestamp
          ∈ batches.flatten)
    ∧ (∀ (syncFn : Bool → Bool) (s : StateCore α) (batch : List Nat),
        s.last_updated_timestamp
          ≤ ((updateKnownHosts syncFn
              (batch.foldl on_hosts_updated s)).1).last_updated_timestamp)
    ∧ (∀ (f g : Bool → Bool) (s : StateCore α),
        (updateKnownHosts f s).1 = (updateKnownHosts g s).1) := by
  have hts : ∀ (syncFn : Bool → Bool) (batches : List (List Nat)),
      (runBatches (α := α) syncFn batches).last_updated_timestamp
        = batches.flatten.foldl max 0 := by
    intro syncFn batches
    exact runBatches_timestamp_aux syncFn batches StateCore.init rfl
  have hperm : ∀ (bs bs' : List (List Nat)),
      List.Forall₂ List.Perm bs bs' → bs.flatten.Perm bs'.flatten := by
    intro bs bs' hf
    induction hf with
    | nil => exact List.Perm.refl _
    | cons h _ ih => simpa [List.flatten_cons] using h.append ih
  refine ⟨hts, ?_, ?_, ?_, ?_, ?_⟩
  · intro syncFn syncFn' batches batches' hf
    rw [hts, hts]
    exact foldl_max_perm (hperm _ _ hf) 0
  · intro syncFn batches t ht
    rw [hts]
    exact mem_le_foldl_max _ 0 t ht
  · intro syncFn batches hne
    rw [hts]
    cases hfl : batches.flatten with
    | nil => exact absurd hfl hne
    | cons x rest =>
      rcases foldl_max_mem (x :: rest) 0 with h0 | hmem
      · have hx : x ≤ (x :: rest).foldl max 0 :=
          mem_le_foldl_max _ 0 x (List.mem_cons_self x rest)
        rw [h0] at hx
        rw [h0, ← Nat.le_zero.mp hx]
        exact List.mem_cons_self x rest
      · exact hmem
  · intro syncFn s batch
    rw [foldl_on_hosts_updated, updateKnownHosts_fst_timestamp]
    exact le_foldl_max _ _
  · intro f g s
    rfl

theorem commit_timestamp_running_max_witness :
    (5 : Nat) ∈ ([[3, 1, 2], [5]] : List (List Nat)).flatten
    ∧ 5 ≤ (runBatches (α := Unit) (fun b => b)
        [[3, 1, 2], [5]]).last_updated_timestamp
    ∧ (runBatches (α := Unit) (fun b => b)
        [[3, 1, 2], [5]]).last_updated_timestamp = 5 :=
  ⟨by decide,
    (commit_timestamp_running_max (α := Unit)).2.2.1 (fun b => b)
      [[3, 1, 2], [5]] 5 (by decide),
    by decide⟩

/-- C4: for an `ObjectState` (tracked keys pairwise distinct, as in a
Python dict), `save()` followed by `restore()` leaves every tracked
attribute unchanged; and `restore()` on its own (after any mutation of the
live attributes) puts every tracked attribute back to the value held in
the saved mapping, i.e. the value captured by the last `save()`. -/
theorem save_restore_roundtrip {K V α : Type} [DecidableEq K] :
    (∀ (s s' : ObjectState K V α), (keysOf s.saved_state).Nodup →
        ObjectState.save s = some s' →
        ∀ k ∈ keysOf s.saved_state,
          getattr (ObjectState.restore s').attrs k = getattr s.attrs k)
    ∧ (∀ s : ObjectState K V α, (keysOf s.saved_state).Nodup →
        ∀ k ∈ keysOf s.saved_state,
          getattr (ObjectState.restore s).attrs k = getattr s.saved_state k) := by
  constructor
  · intro s s' hnd hsave k hk
    unfold ObjectState.save at hsave
    cases hsnap : ObjectState.snapshot s.attrs s.saved_state with
    | none => rw [hsnap] at hsave; simp at hsave
    | some ns =>
      rw [hsnap] at hsave
      simp only [Option.map_some', Option.some.injEq] at hsave
      subst hsave
      have hkeys := ObjectState.snapshot_keys s.attrs s.saved_state ns hsnap
      have hmem : k ∈ keysOf ns := hkeys ▸ hk
      have hnd' : (keysOf ns).Nodup := hkeys ▸ hnd
      show getattr (setAttrs s.attrs ns) k = getattr s.attrs k
      rw [getattr_setAttrs_mem ns s.attrs k hnd' hmem]
      exact ObjectState.getattr_snapshot s.attrs s.saved_state ns hsnap k hk
  · intro s hnd k hk
    exact getattr_setAttrs_mem s.saved_state s.attrs k hnd hk

theorem save_restore_roundtrip_witness :
    getattr (ObjectState.restore demoSaved).attrs 0 = some 4 := by
  have h := (save_restore_roundtrip (K := Nat) (V := Nat) (α := Unit)).2
      demoSaved (by decide) 0 (by decide)
  rw [h]
  decide

/-- C6: `commit()` is `save()` followed by `_update_known_hosts()`: when
it succeeds (possibly with the membership-changed signal raised), the
result's saved mapping is the snapshot of the pre-commit live attributes,
its inherited state is the post-drain state, and the raise decision is
the synced flag computed from the pre-commit queue — so the snapshot is
taken before the signal can be raised. -/
theorem commit_saves_then_checks_hosts {K V α : Type} [DecidableEq K] :
    ∀ (syncFn : Bool → Bool) (s s'' : ObjectState K V α) (r : Bool),
      ObjectState.commit syncFn s = some (s'', r) →
        keysOf s''.saved_state = keysOf s.saved_state
        ∧ (∀ k ∈ keysOf s.saved_state, getattr s''.saved_state k = getattr s.attrs k)
        ∧ s''.core = (updateKnownHosts syncFn s.core).1
        ∧ r = syncFn (localFlag s.core) := by
  intro syncFn s s'' r hc
  unfold ObjectState.commit ObjectState.save at hc
  cases hsnap : ObjectState.snapshot s.attrs s.saved_state with
  | none => rw [hsnap] at hc; simp at hc
  | some ns =>
    rw [hsnap] at hc
    simp only [Option.map_some', Option.some.injEq, Prod.mk.injEq] at hc
    obtain ⟨hs'', hr⟩ := hc
    subst hs''
    refine ⟨ObjectState.snapshot_keys s.attrs s.saved_state ns hsnap, ?_, rfl, ?_⟩
    · intro k hk
      exact ObjectState.getattr_snapshot s.attrs s.saved_state ns hsnap k hk
    · rw [← hr]; rfl

theorem commit_saves_then_checks_hosts_witness :
    ObjectState.commit (fun b => b) demoCommitState
        = some (({ saved_state := [(0, 9)], attrs := [(0, 9)],
                   core := { host_messages := [], last_updated_timestamp := 100,
                             reset_callbacks := [] } } : ObjectState Nat Nat Unit),
                true)
    ∧ getattr (({ saved_state := [(0, 9)], attrs := [(0, 9)],
                  core := { host_messages := [], last_updated_timestamp := 100,
                            reset_callbacks := [] } } : ObjectState Nat Nat Unit)).saved_state 0
        = getattr demoCommitState.attrs 0 := by
  refine ⟨by decide, ?_⟩
  have h := commit_saves_then_checks_hosts (fun b => b) demoCommitState
      ({ saved_state := [(0, 9)], attrs := [(0, 9)],
         core := { host_messages := [], last_updated_timestamp := 100,
                   reset_callbacks := [] } }) true (by decide)
  exact h.2.1 0 (by decide)

/-- C7: `register_reset_callbacks` appends in order without
deduplication (registering `[a, b]` then `[c]` yields the list extended
by `a, b, c`); `on_reset()` invokes the registered callbacks exactly once
each in registration order when none fails, and a failing callback
propagates its error and aborts the callbacks after it. -/
theorem reset_callbacks_run_in_order {α ε : Type} :
    (∀ (s : StateCore α) (a b c : α),
        (register_reset_callbacks (register_reset_callbacks s [a, b]) [c]).reset_callbacks
          = s.reset_callbacks ++ [a, b, c])
    ∧ (∀ (run : α → Option ε) (s : StateCore α),
        (∀ x ∈ s.reset_callbacks, run x = none) →
        on_reset run s = (s.reset_callbacks, none))
    ∧ (∀ (run : α → Option ε) (s : StateCore α) (cs1 : List α) (c : α)
        (cs2 : List α) (e : ε),
        s.reset_callbacks = cs1 ++ c :: cs2 →
        (∀ x ∈ cs1, run x = none) → run c = some e →
        on_reset run s = (cs1 ++ [c], some e)) := by
  refine ⟨?_, ?_, ?_⟩
  · intro s a b c
    simp [register_reset_callbacks, List.append_assoc]
  · intro run s h
    exact runCallbacks_all_none run s.reset_callbacks h
  · intro run s cs1 c cs2 e hcb h1 hc
    unfold on_reset
    rw [hcb]
    exact runCallbacks_first_failure run cs1 c cs2 e h1 hc

theorem reset_callbacks_run_in_order_witness :
    on_reset (fun n => if n = 2 then some 0 else none)
        ({ host_messages := [], last_updated_timestamp := 0,
           reset_callbacks := [1, 2, 3] } : StateCore Nat)
      = ([1, 2], some 0) := by
  have h := (reset_callbacks_run_in_order (α := Nat) (ε := Nat)).2.2
      (fun n => if n = 2 then some 0 else none)
      ({ host_messages := [], last_updated_timestamp := 0,
         reset_callbacks := [1, 2, 3] }) [1] 2 [3] 0
      (by decide) (by decide) (by decide)
  simpa using h

/-- C8: `sync()` on an `ObjectState` whose tracked mapping is empty makes
no broadcast call and returns the object unchanged. -/
theorem sync_noop_on_empty {K V α : Type} [DecidableEq K]
    (bcast : List (K × V) → List (K × V)) (s : ObjectState K V α)
    (h : s.saved_state = []) :
    ObjectState.sync bcast s = (s, false) := by
  simp [ObjectState.sync, h]

theorem sync_noop_on_empty_witness :
    ObjectState.sync (fun m => m) demoEmptyState = (demoEmptyState, false) :=
  sync_noop_on_empty (fun m => m) demoEmptyState rfl

/-- C9: `sync()` on a non-empty tracked mapping replaces the internal
saved mapping itself with the broadcast result, so a `restore()` after
`sync()` (with no intervening `save()`) re-applies the broadcast result
to every tracked attribute. -/
theorem sync_rebroadcasts_saved {K V α : Type} [DecidableEq K]
    (bcast : List (K × V) → List (K × V)) (s : ObjectState K V α)
    (h : s.saved_state ≠ []) :
    (ObjectState.sync bcast s).1.saved_state = bcast s.saved_state
    ∧ ((keysOf (bcast s.saved_state)).Nodup →
        ∀ k ∈ keysOf (bcast s.saved_state),
          getattr (ObjectState.restore (ObjectState.sync bcast s).1).attrs k
            = getattr (bcast s.saved_state) k) := by
  have hne : s.saved_state.isEmpty = false := by
    cases hs : s.saved_state with
    | nil => exact absurd hs h
    | cons x rest => rfl
  have hsync : ObjectState.sync bcast s
      = (({ s with
            saved_state := bcast s.saved_state,
            attrs := setAttrs s.attrs (bcast s.saved_state) } : ObjectState K V α),
         true) := by
    simp [ObjectState.sync, hne]
  constructor
  · rw [hsync]
  · intro hnd k hk
    rw [hsync]
    show getattr (setAttrs (setAttrs s.attrs (bcast s.saved_state))
        (bcast s.saved_state)) k = getattr (bcast s.saved_state) k
    exact getattr_setAttrs_mem _ _ k hnd hk

theorem sync_rebroadcasts_saved_witness :
    (ObjectState.sync (fun _ => [(0, 7)]) demoSyncState).1.saved_state = [(0, 7)]
    ∧ getattr (ObjectState.restore
        (ObjectState.sync (fun _ => [(0, 7)]) demoSyncState).1).attrs 0 = some 7 := by
  have h := sync_rebroadcasts_saved (fun _ => [(0, 7)]) demoSyncState (by decide)
  refine ⟨h.1, ?_⟩
  rw [h.2 (by decide) 0 (by decide)]
  decide

/-- C10: the tracked attribute names are the keys of the construction-time
mapping; `save()` snapshots exactly the keys already present in the saved
mapping and `restore()` never changes them; a live attribute assigned
under a fresh name is absent from the snapshot after `save()` and is left
untouched by `restore()`. -/
theorem tracked_attr_names_fixed {K V α : Type} [DecidableEq K] :
    (∀ kwargs : List (K × V),
        keysOf (ObjectState.init (α := α) kwargs).saved_state = keysOf kwargs)
    ∧ (∀ (s s' : ObjectState K V α), ObjectState.save s = some s' →
        keysOf s'.saved_state = keysOf s.saved_state)
    ∧ (∀ s : ObjectState K V α,
        keysOf (ObjectState.restore s).saved_state = keysOf s.saved_state)
    ∧ (∀ (s : ObjectState K V α) (k : K) (v : V) (s' : ObjectState K V α),
        k ∉ keysOf s.saved_state →
        ObjectState.save (ObjectState.setLive s k v) = some s' →
        getattr s'.saved_state k = none
        ∧ getattr (ObjectState.restore s').attrs k
            = getattr (ObjectState.setLive s k v).attrs k) := by
  refine ⟨fun kwargs => rfl, ?_, fun s => rfl, ?_⟩
  · intro s s' hsave
    unfold ObjectState.save at hsave
    cases hsnap : ObjectState.snapshot s.attrs s.saved_state with
    | none => rw [hsnap] at hsave; simp at hsave
    | some ns =>
      rw [hsnap] at hsave
      simp only [Option.map_some', Option.some.injEq] at hsave
      subst hsave
      exact ObjectState.snapshot_keys s.attrs s.saved_state ns hsnap
  · intro s k v s' hk hsave
    unfold ObjectState.save at hsave
    cases hsnap : ObjectState.snapshot (ObjectState.setLive s k v).attrs
        (ObjectState.setLive s k v).saved_state with
    | none => rw [hsnap] at hsave; simp at hsave
    | some ns =>
      rw [hsnap] at hsave
      simp only [Option.map_some', Option.some.injEq] at hsave
      subst hsave
      have hkeys := ObjectState.snapshot_keys _ _ ns hsnap
      have hnot : k ∉ keysOf ns := by
        rw [hkeys]
        exact hk
      refine ⟨(getattr_eq_none_iff ns k).mpr hnot, ?_⟩
      show getattr (setAttrs (ObjectState.setLive s k v).attrs ns) k
          = getattr (ObjectState.setLive s k v).attrs k
      exact getattr_setAttrs_not_mem ns _ k hnot

theorem tracked_attr_names_fixed_witness :
    (1 : Nat) ∉ keysOf demoSaved.saved_state
    ∧ ObjectState.save (ObjectState.setLive demoSaved 1 7)
        = some ({ saved_state := [(0, 9)], attrs := [(0, 9), (1, 7)],
                  core := StateCore.init } : ObjectState Nat Nat Unit)
    ∧ getattr (({ saved_state := [(0, 9)], attrs := [(0, 9), (1, 7)],
                  core := StateCore.init } : ObjectState Nat Nat Unit)).saved_state 1
        = none := by
  refine ⟨by decide, by decide, ?_⟩
  have h := (tracked_attr_names_fixed (K := Nat) (V := Nat) (α := Unit)).2.2.2
      demoSaved 1 7
      ({ saved_state := [(0, 9)], attrs := [(0, 9), (1, 7)],
         core := StateCore.init }) (by decide) (by decide)
  exact h.1

end Elastic
